import Mathlib

/-!
Shallow embedding of the One Codespace lifecycle-enforcement engine
(background.js, api.js, storage.js) and proofs about its eviction policy,
exclusion filter, access ledger and retry layer.

Timestamps and durations are modelled as `Int` (JS numbers in epoch
milliseconds), attempt counts and delays as `Nat`.
-/

namespace OneCodespace

/-- A workspace record as returned by the remote list call.  Only the fields
the engine reads are modelled: `name`, `repository.full_name` and `state`. -/
structure Codespace where
  name : String
  repo_full_name : String
  state : String
  deriving DecidableEq

/-- The engine-relevant part of the settings object (`DEFAULT_SETTINGS` shape
in background.js / storage.js). -/
structure Settings where
  githubToken : String
  autoStopEnabled : Bool
  maxCodespaces : Nat
  autoStopMinutes : Nat
  excludedRepos : List String
  deriving DecidableEq

/-- Default settings from background.js. -/
def DEFAULT_SETTINGS : Settings :=
  { githubToken := ""
    autoStopEnabled := true
    maxCodespaces := 1
    autoStopMinutes := 30
    excludedRepos := [] }

/-- JavaScript `String.prototype.includes`: `jsIncludes s pat` is true when
`pat` occurs as a contiguous substring of `s` (always true for `pat = ""`). -/
def jsIncludes (s pat : String) : Bool :=
  (List.range (s.data.length + 1)).any fun i =>
    decide ((s.data.drop i).take pat.data.length = pat.data)

/-- `filterCodespacesByRepo` from background.js / api.js: drop every codespace
whose repository full name equals an excluded entry or contains it as a
substring; an empty exclusion list passes everything through. -/
def filterCodespacesByRepo (codespaces : List Codespace) (excludedRepos : List String) :
    List Codespace :=
  if excludedRepos.isEmpty then codespaces
  else
    codespaces.filter fun cs =>
      ! excludedRepos.any fun excluded =>
          cs.repo_full_name == excluded || jsIncludes cs.repo_full_name excluded

/-- The access-ledger backing store: workspace name to last-access timestamp. -/
def Ledger : Type := String → Option Int

/-- Outcome of one `chrome.storage.local.get` call for an access key:
either the stored value (possibly absent) or a thrown storage error. -/
inductive ReadOutcome where
  | ok (v : Option Int)
  | failure
  deriving DecidableEq

/-- `getCodespaceLastAccess` from storage.js / background.js:
`result[key] || Date.now()` inside a try/catch that also returns `Date.now()`.
A stored value of `0` is falsy in JS, hence also falls back to `now`. -/
def getCodespaceLastAccess (r : ReadOutcome) (now : Int) : Int :=
  match r with
  | .ok (some t) => if t = 0 then now else t
  | .ok none => now
  | .failure => now

/-- A successful ledger read for `name`, as performed inside a cycle. -/
def lastAccessOf (ledger : Ledger) (name : String) (now : Int) : Int :=
  getCodespaceLastAccess (ReadOutcome.ok (ledger name)) now

/-- `removeCodespaceAccess`: drop the entry for one workspace name. -/
def removeAccess (ledger : Ledger) (name : String) : Ledger :=
  fun m => if m = name then none else ledger m

/-- Eviction reasons from the spec's decision model. -/
inductive Reason where
  | MaxExceeded
  | IdleTimeout
  deriving DecidableEq

/-- Observable outcome of one stop attempt inside a cycle: the success
notification, or the logged-and-skipped failure. -/
inductive Outcome where
  | stopped (name : String)
  | stopFailed (name : String)
  deriving DecidableEq

/-- The per-entry stop loop shared by `checkAndStopInactiveCodespaces` and
`enforceMaxCodespaces`: for each selected codespace in order, try to stop it;
on success emit a stopped outcome and remove its ledger entry; on failure
log (emit a failed outcome) and continue with the next entry.
`stopOk name` abstracts whether the remote stop call for `name` succeeds. -/
def stopLoop (stopOk : String → Bool) (decision : List Codespace) (ledger : Ledger) :
    List Outcome × Ledger :=
  match decision with
  | [] => ([], ledger)
  | cs :: rest =>
    if stopOk cs.name then
      let r := stopLoop stopOk rest (removeAccess ledger cs.name)
      (Outcome.stopped cs.name :: r.1, r.2)
    else
      let r := stopLoop stopOk rest ledger
      (Outcome.stopFailed cs.name :: r.1, r.2)

/-- The idle threshold in milliseconds: `settings.autoStopMinutes * 60 * 1000`. -/
def idleThresholdMs (settings : Settings) : Int :=
  (settings.autoStopMinutes : Int) * 60 * 1000

/-- The selection made by `checkAndStopInactiveCodespaces`: every codespace
whose inactive duration `now - lastAccess` strictly exceeds the threshold. -/
def idleSelect (codespaces : List Codespace) (ledger : Ledger) (now thresholdMs : Int) :
    List Codespace :=
  codespaces.filter fun cs =>
    decide (now - lastAccessOf ledger cs.name now > thresholdMs)

/-- The idle pass as an eviction decision with reasons. -/
def idleDecision (codespaces : List Codespace) (ledger : Ledger) (now thresholdMs : Int) :
    List (Codespace × Reason) :=
  (idleSelect codespaces ledger now thresholdMs).map fun cs => (cs, Reason.IdleTimeout)

/-- `checkAndStopInactiveCodespaces` from background.js: stop, in list order,
every filtered codespace whose inactive duration exceeds the threshold. -/
def checkAndStopInactiveCodespaces (stopOk : String → Bool) (codespaces : List Codespace)
    (settings : Settings) (ledger : Ledger) (now : Int) : List Outcome × Ledger :=
  stopLoop stopOk (idleSelect codespaces ledger now (idleThresholdMs settings)) ledger

/-- `performCodespaceCheck` from background.js: skip when no token or auto-stop
disabled; otherwise keep Available codespaces, apply the exclusion filter, and
run the idle pass.  (It does not invoke `enforceMaxCodespaces`.) -/
def performCodespaceCheck (stopOk : String → Bool) (codespaces : List Codespace)
    (settings : Settings) (ledger : Ledger) (now : Int) : List Outcome × Ledger :=
  if settings.githubToken = "" then ([], ledger)
  else if settings.autoStopEnabled = false then ([], ledger)
  else
    let filtered :=
      filterCodespacesByRepo (codespaces.filter fun cs => cs.state == "Available")
        settings.excludedRepos
    checkAndStopInactiveCodespaces stopOk filtered settings ledger now

/-- The comparator used by `enforceMaxCodespaces`'s sort:
`(a, b) => a.lastAccess - b.lastAccess`, i.e. ascending last access. -/
def leAccess (a b : Codespace × Int) : Prop := a.2 ≤ b.2

instance : DecidableRel leAccess := fun a b => Int.decLe a.2 b.2

instance : IsTotal (Codespace × Int) leAccess := ⟨fun a b => Int.le_total a.2 b.2⟩

instance : IsTrans (Codespace × Int) leAccess := ⟨fun _ _ _ h h2 => Int.le_trans h h2⟩

/-- Attach the ledger's last-access timestamp to each codespace, as the
`Promise.all` map in `enforceMaxCodespaces` does. -/
def withAccess (codespaces : List Codespace) (ledger : Ledger) (now : Int) :
    List (Codespace × Int) :=
  codespaces.map fun cs => (cs, lastAccessOf ledger cs.name now)

/-- The JS `Array.prototype.sort((a, b) => a.lastAccess - b.lastAccess)` call:
a stable sort by ascending last access, modelled by stable insertion sort. -/
def sortByAccess (l : List (Codespace × Int)) : List (Codespace × Int) :=
  List.insertionSort leAccess l

/-- The selection made by `enforceMaxCodespaces`: nothing when the filtered
count is within the limit, otherwise the first `count - maxCodespaces` entries
of the list sorted by ascending last access. -/
def enforceSelect (codespaces : List Codespace) (settings : Settings) (ledger : Ledger)
    (now : Int) : List (Codespace × Int) :=
  let filtered := filterCodespacesByRepo codespaces settings.excludedRepos
  if filtered.length ≤ settings.maxCodespaces then []
  else
    (sortByAccess (withAccess filtered ledger now)).take
      (filtered.length - settings.maxCodespaces)

/-- The max-count pass as an eviction decision with reasons. -/
def enforceDecision (codespaces : List Codespace) (settings : Settings) (ledger : Ledger)
    (now : Int) : List (Codespace × Reason) :=
  (enforceSelect codespaces settings ledger now).map fun p => (p.1, Reason.MaxExceeded)

/-- `enforceMaxCodespaces` from background.js: skip when no token or auto-stop
disabled; otherwise stop the selected oldest excess codespaces in order. -/
def enforceMaxCodespaces (stopOk : String → Bool) (codespaces : List Codespace)
    (settings : Settings) (ledger : Ledger) (now : Int) : List Outcome × Ledger :=
  if settings.githubToken = "" then ([], ledger)
  else if settings.autoStopEnabled = false then ([], ledger)
  else
    stopLoop stopOk ((enforceSelect codespaces settings ledger now).map Prod.fst) ledger

/-- Typed remote-call error: HTTP-like status plus the optional parsed
`Retry-After` header value in seconds. -/
structure JSError where
  status : Nat
  retryAfterSecs : Option Nat
  deriving DecidableEq

/-- `RETRY_DELAY_MS` constant from api.js / background.js. -/
def RETRY_DELAY_MS : Nat := 1000

/-- Result of a `retryWithBackoff` run: the returned value or thrown error
(`none` models the initial undefined `lastError`), the sequence of sleep
delays in milliseconds, and the number of attempts actually made. -/
structure RetryTrace (α : Type) where
  result : Except (Option JSError) α
  sleeps : List Nat
  attempts : Nat

/-- The sleep delay for a rate-limited attempt:
`retryAfter ? parseInt(retryAfter) * 1000 : RETRY_DELAY_MS * 2 ** attempt`. -/
def rateLimitDelay (retryAfterSecs : Option Nat) (attempt : Nat) : Nat :=
  match retryAfterSecs with
  | some ra => ra * 1000
  | none => RETRY_DELAY_MS * 2 ^ attempt

/-- One pass of the `retryWithBackoff` loop with `fuel` attempts remaining out
of `maxAttempts`; `fn i` is the outcome of the `i`-th invocation. -/
def retryGo (fn : Nat → Except JSError α) (maxAttempts : Nat) :
    Nat → Option JSError → RetryTrace α
  | 0, lastError => ⟨.error lastError, [], 0⟩
  | fuel + 1, _ =>
    let attempt := maxAttempts - (fuel + 1)
    match fn attempt with
    | .ok v => ⟨.ok v, [], 1⟩
    | .error e =>
      if e.status = 429 then
        let r := retryGo fn maxAttempts fuel (some e)
        ⟨r.result, rateLimitDelay e.retryAfterSecs attempt :: r.sleeps, r.attempts + 1⟩
      else if e.status = 401 ∨ e.status = 403 ∨ e.status = 404 then
        ⟨.error (some e), [], 1⟩
      else if attempt < maxAttempts - 1 then
        let r := retryGo fn maxAttempts fuel (some e)
        ⟨r.result, RETRY_DELAY_MS * 2 ^ attempt :: r.sleeps, r.attempts + 1⟩
      else
        let r := retryGo fn maxAttempts fuel (some e)
        ⟨r.result, r.sleeps, r.attempts + 1⟩

/-- `retryWithBackoff` from api.js / background.js (default `maxAttempts = 3`). -/
def retryWithBackoff (fn : Nat → Except JSError α) (maxAttempts : Nat := 3) :
    RetryTrace α :=
  retryGo fn maxAttempts maxAttempts none

/-! ### Concrete inputs used by witnesses and counterexamples -/

/-- Concrete workspace used in witnesses and counterexamples. -/
def wsA : Codespace := ⟨"alpha", "org/a", "Available"⟩

/-- Concrete workspace used in witnesses and counterexamples. -/
def wsB : Codespace := ⟨"beta", "org/b", "Available"⟩

/-- Concrete workspace used in witnesses and counterexamples. -/
def wsC : Codespace := ⟨"gamma", "org/c", "Available"⟩

/-- A settings snapshot with a token, auto-stop on and `maxCodespaces = 1`. -/
def settMax1 : Settings :=
  { githubToken := "t", autoStopEnabled := true, maxCodespaces := 1,
    autoStopMinutes := 30, excludedRepos := [] }

/-- Ledger with only `alpha` recorded, at timestamp 1. -/
def ledgerOne : Ledger := fun n => if n = "alpha" then some 1 else none

/-- Ledger where `alpha` and `beta` have the same last-access timestamp. -/
def tieLedger : Ledger :=
  fun n => if n = "alpha" then some 500 else if n = "beta" then some 500 else none

/-- Ledger with `alpha` at 1000 and `beta` at 2000. -/
def recentLedger : Ledger :=
  fun n => if n = "alpha" then some 1000 else if n = "beta" then some 2000 else none

/-- Ledger with `alpha`, `beta`, `gamma` at 600, 605, 610. -/
def distinctLedger : Ledger :=
  fun n =>
    if n = "alpha" then some 600
    else if n = "beta" then some 605
    else if n = "gamma" then some 610
    else none

/-- The everywhere-absent ledger. -/
def emptyLedger : Ledger := fun _ => none

/-! ### Helper lemmas -/

/-- The empty pattern is a substring of every string. -/
theorem jsIncludes_empty (s : String) : jsIncludes s "" = true := by
  apply List.any_eq_true.mpr
  refine ⟨0, List.mem_range.mpr (Nat.succ_pos _), ?_⟩
  simp

/-- Every string contains itself as a substring. -/
theorem jsIncludes_self (s : String) : jsIncludes s s = true := by
  apply List.any_eq_true.mpr
  refine ⟨0, List.mem_range.mpr (Nat.succ_pos _), ?_⟩
  simp [List.take_length]

/-- A codespace whose repository name equals an excluded pattern or contains it
as a substring is removed by the exclusion filter. -/
theorem not_mem_filterCodespacesByRepo (codespaces : List Codespace)
    (excludedRepos : List String) (cs : Codespace) (p : String)
    (hp : p ∈ excludedRepos)
    (hm : cs.repo_full_name = p ∨ jsIncludes cs.repo_full_name p = true) :
    cs ∉ filterCodespacesByRepo codespaces excludedRepos := by
  intro hmem
  have hne : excludedRepos.isEmpty = false := by
    cases excludedRepos with
    | nil => cases hp
    | cons a l => rfl
  rw [filterCodespacesByRepo, hne] at hmem
  simp only [Bool.false_eq_true, if_false, List.mem_filter, Bool.not_eq_true'] at hmem
  have hany : (excludedRepos.any fun excluded =>
      cs.repo_full_name == excluded || jsIncludes cs.repo_full_name excluded) = true := by
    apply List.any_eq_true.mpr
    refine ⟨p, hp, ?_⟩
    rcases hm with hm | hm
    · simp [hm]
    · simp [hm]
  rw [hany] at hmem
  exact absurd hmem.2 (by simp)

/-- Every element selected by the max-count pass comes from the exclusion-
filtered list (paired with its ledger timestamp). -/
theorem enforceSelect_mem (codespaces : List Codespace) (s : Settings) (ledger : Ledger)
    (now : Int) (q : Codespace × Int) (hq : q ∈ enforceSelect codespaces s ledger now) :
    q ∈ withAccess (filterCodespacesByRepo codespaces s.excludedRepos) ledger now := by
  rw [enforceSelect] at hq
  by_cases hlen :
      (filterCodespacesByRepo codespaces s.excludedRepos).length ≤ s.maxCodespaces
  · simp only [hlen, if_true] at hq
    cases hq
  · simp only [hlen, if_false] at hq
    have h1 := List.take_subset _ _ hq
    exact (List.perm_insertionSort leAccess _).subset h1

/-- The first component of a max-count selection entry is a filtered codespace. -/
theorem enforceSelect_fst_mem (codespaces : List Codespace) (s : Settings) (ledger : Ledger)
    (now : Int) (q : Codespace × Int) (hq : q ∈ enforceSelect codespaces s ledger now) :
    q.1 ∈ filterCodespacesByRepo codespaces s.excludedRepos := by
  have h := enforceSelect_mem codespaces s ledger now q hq
  rw [withAccess] at h
  obtain ⟨cs, hcs, hEq⟩ := List.mem_map.mp h
  rw [← hEq]
  exact hcs

/-! ### Claim theorems -/

/-- C2 (counterexample): the claim says `idleThreshold = 0` disables idle
eviction, but with threshold `0` the idle pass selects a workspace last
accessed at time 1 when `now = 2`: the selection is nonempty. -/
theorem c2_zero_threshold_still_evicts : idleSelect [wsA] ledgerOne 2 0 = [wsA] := by
  rfl

/-- C2 (amended): a filtered workspace is selected by the idle pass if and only
if `now - lastAccess` strictly exceeds the threshold — with no `idleThreshold
> 0` guard, so a zero threshold does not disable idle eviction. -/
theorem c2_idle_selection_iff (codespaces : List Codespace) (ledger : Ledger)
    (now thresholdMs : Int) (cs : Codespace) :
    cs ∈ idleSelect codespaces ledger now thresholdMs ↔
      cs ∈ codespaces ∧ now - lastAccessOf ledger cs.name now > thresholdMs := by
  simp [idleSelect, List.mem_filter]

/-- C9: a ledger read with no prior entry returns `now`, a failed read returns
`now`, and consequently an unseen workspace has inactive duration zero and is
never selected by the idle pass for any nonnegative threshold. -/
theorem c9_missing_entry_defaults_to_now (now : Int) (cs : Codespace) (ledger : Ledger)
    (thresholdMs : Int) (hcs : ledger cs.name = none) (hthr : 0 ≤ thresholdMs) :
    getCodespaceLastAccess (ReadOutcome.ok none) now = now ∧
    getCodespaceLastAccess ReadOutcome.failure now = now ∧
    lastAccessOf ledger cs.name now = now ∧
    cs ∉ idleSelect [cs] ledger now thresholdMs := by
  refine ⟨by rfl, by rfl, ?_, ?_⟩
  · rw [lastAccessOf, hcs]
    rfl
  · intro hmem
    rw [c2_idle_selection_iff] at hmem
    rw [lastAccessOf, hcs] at hmem
    have h2 := hmem.2
    simp only [getCodespaceLastAccess] at h2
    omega

/-- C9 witness: instantiation at a concrete unseen workspace. -/
theorem c9_missing_entry_defaults_to_now_witness :
    getCodespaceLastAccess (ReadOutcome.ok none) 100 = 100 ∧
    getCodespaceLastAccess ReadOutcome.failure 100 = 100 ∧
    lastAccessOf emptyLedger wsA.name 100 = 100 ∧
    wsA ∉ idleSelect [wsA] emptyLedger 100 0 :=
  c9_missing_entry_defaults_to_now 100 wsA emptyLedger 0 rfl (by decide)

/-- C10: an empty string among the excluded patterns excludes every workspace:
the filter returns the empty list, both eviction passes select nothing, and
both cycle entry points stop nothing and leave the ledger unchanged. -/
theorem c10_empty_pattern_excludes_everything (codespaces : List Codespace) (s : Settings)
    (ledger : Ledger) (now : Int) (stopOk : String → Bool)
    (h : "" ∈ s.excludedRepos) :
    filterCodespacesByRepo codespaces s.excludedRepos = [] ∧
    enforceSelect codespaces s ledger now = [] ∧
    performCodespaceCheck stopOk codespaces s ledger now = ([], ledger) ∧
    enforceMaxCodespaces stopOk codespaces s ledger now = ([], ledger) := by
  have hfil : ∀ l : List Codespace, filterCodespacesByRepo l s.excludedRepos = [] := by
    intro l
    have hne : s.excludedRepos.isEmpty = false := by
      cases hrepos : s.excludedRepos with
      | nil => rw [hrepos] at h; cases h
      | cons a tl => rfl
    rw [filterCodespacesByRepo, hne]
    simp only [Bool.false_eq_true, if_false]
    apply List.filter_eq_nil_iff.mpr
    intro cs _
    have hany : (s.excludedRepos.any fun excluded =>
        cs.repo_full_name == excluded || jsIncludes cs.repo_full_name excluded) = true := by
      apply List.any_eq_true.mpr
      exact ⟨"", h, by simp [jsIncludes_empty]⟩
    simp [hany]
  have hsel : enforceSelect codespaces s ledger now = [] := by
    rw [enforceSelect, hfil]
    simp
  refine ⟨hfil codespaces, hsel, ?_, ?_⟩
  · rw [performCodespaceCheck]
    by_cases htok : s.githubToken = ""
    · rw [if_pos htok]
    · rw [if_neg htok]
      by_cases hen : s.autoStopEnabled = false
      · rw [if_pos hen]
      · rw [if_neg hen]
        rw [checkAndStopInactiveCodespaces, hfil]
        rfl
  · rw [enforceMaxCodespaces]
    by_cases htok : s.githubToken = ""
    · rw [if_pos htok]
    · rw [if_neg htok]
      by_cases hen : s.autoStopEnabled = false
      · rw [if_pos hen]
      · rw [if_neg hen, hsel]
        rfl

/-- C10 witness: a concrete configuration whose exclusion list contains the
empty string stops nothing. -/
theorem c10_empty_pattern_excludes_everything_witness :
    filterCodespacesByRepo [wsA, wsB] [""] = [] ∧
    enforceSelect [wsA, wsB] { settMax1 with excludedRepos := [""] } recentLedger 3000 = [] ∧
    performCodespaceCheck (fun _ => true) [wsA, wsB]
      { settMax1 with excludedRepos := [""] } recentLedger 3000 = ([], recentLedger) ∧
    enforceMaxCodespaces (fun _ => true) [wsA, wsB]
      { settMax1 with excludedRepos := [""] } recentLedger 3000 = ([], recentLedger) :=
  c10_empty_pattern_excludes_everything [wsA, wsB] { settMax1 with excludedRepos := [""] }
    recentLedger 3000 (fun _ => true) (by decide)

/-- C5: a workspace whose repository identifier equals an excluded pattern or
contains it as a substring is removed by the exclusion filter and appears in
neither the idle-pass decision nor the max-count decision. -/
theorem c5_excluded_workspace_never_selected (codespaces : List Codespace) (s : Settings)
    (ledger : Ledger) (now : Int) (cs : Codespace) (p : String)
    (hp : p ∈ s.excludedRepos)
    (hm : cs.repo_full_name = p ∨ jsIncludes cs.repo_full_name p = true) :
    cs ∉ filterCodespacesByRepo codespaces s.excludedRepos ∧
    (∀ r, (cs, r) ∉ idleDecision (filterCodespacesByRepo codespaces s.excludedRepos)
        ledger now (idleThresholdMs s)) ∧
    (∀ r, (cs, r) ∉ enforceDecision codespaces s ledger now) := by
  have hnot := not_mem_filterCodespacesByRepo codespaces s.excludedRepos cs p hp hm
  refine ⟨hnot, ?_, ?_⟩
  · intro r hmem
    rw [idleDecision] at hmem
    obtain ⟨cs2, hcs2, hEq⟩ := List.mem_map.mp hmem
    have : cs2 = cs := congrArg Prod.fst hEq
    subst this
    have hmemfil := (c2_idle_selection_iff _ _ _ _ _).mp hcs2
    exact hnot hmemfil.1
  · intro r hmem
    rw [enforceDecision] at hmem
    obtain ⟨q, hq, hEq⟩ := List.mem_map.mp hmem
    have hq1 : q.1 = cs := congrArg Prod.fst hEq
    have := enforceSelect_fst_mem codespaces s ledger now q hq
    rw [hq1] at this
    exact hnot this

/-- C5 witness: pattern `"org/repo"` also excludes `"org/repo-fork"`. -/
theorem c5_excluded_workspace_never_selected_witness :
    let fork : Codespace := ⟨"delta", "org/repo-fork", "Available"⟩
    let s : Settings := { settMax1 with excludedRepos := ["org/repo"] }
    fork ∉ filterCodespacesByRepo [fork] s.excludedRepos ∧
    (∀ r, (fork, r) ∉ idleDecision (filterCodespacesByRepo [fork] s.excludedRepos)
        emptyLedger 3000 (idleThresholdMs s)) ∧
    (∀ r, (fork, r) ∉ enforceDecision [fork] s emptyLedger 3000) :=
  c5_excluded_workspace_never_selected [⟨"delta", "org/repo-fork", "Available"⟩]
    { settMax1 with excludedRepos := ["org/repo"] } emptyLedger 3000
    ⟨"delta", "org/repo-fork", "Available"⟩ "org/repo" (by decide) (Or.inr (by decide))

/-- C7: when the first attempt fails with status 401, 403 or 404, the retrier
rethrows that error at once: exactly one attempt is made and no sleep occurs,
for every operation and every positive `maxAttempts`. -/
theorem c7_nonretryable_fails_immediately {α : Type} (fn : Nat → Except JSError α)
    (maxAttempts : Nat) (e : JSError) (hM : 1 ≤ maxAttempts)
    (hfn : fn 0 = .error e) (hst : e.status = 401 ∨ e.status = 403 ∨ e.status = 404) :
    retryWithBackoff fn maxAttempts = ⟨.error (some e), [], 1⟩ := by
  obtain ⟨k, rfl⟩ : ∃ k, maxAttempts = k + 1 := ⟨maxAttempts - 1, by omega⟩
  rw [retryWithBackoff, retryGo]
  simp only [Nat.sub_self, hfn]
  have h429 : ¬ e.status = 429 := by rcases hst with h | h | h <;> omega
  rw [if_neg h429, if_pos hst]

/-- C7 witness: a concrete operation that always fails with 401 is surfaced
after one attempt with zero sleeps. -/
theorem c7_nonretryable_fails_immediately_witness :
    retryWithBackoff (fun _ => (.error ⟨401, none⟩ : Except JSError Nat)) 3 =
      ⟨.error (some ⟨401, none⟩), [], 1⟩ :=
  c7_nonretryable_fails_immediately (fun _ => .error ⟨401, none⟩) 3 ⟨401, none⟩
    (by omega) rfl (Or.inl rfl)

/-- Unfolding lemma for one successful `retryWithBackoff` attempt. -/
theorem retryGo_step_ok {α : Type} (fn : Nat → Except JSError α) (M f fuel : Nat)
    (le : Option JSError) (v : α) (hf : f = fuel + 1) (h : fn (M - f) = .ok v) :
    retryGo fn M f le = ⟨.ok v, [], 1⟩ := by
  subst hf
  rw [retryGo]
  simp only [h]

/-- Unfolding lemma for one rate-limited `retryWithBackoff` attempt: record the
sleep delay and continue with the remaining fuel. -/
theorem retryGo_step_rate {α : Type} (fn : Nat → Except JSError α) (M f fuel : Nat)
    (le : Option JSError) (e : JSError) (hf : f = fuel + 1) (h : fn (M - f) = .error e)
    (h429 : e.status = 429) :
    retryGo fn M f le =
      ⟨(retryGo fn M fuel (some e)).result,
        rateLimitDelay e.retryAfterSecs (M - f) :: (retryGo fn M fuel (some e)).sleeps,
        (retryGo fn M fuel (some e)).attempts + 1⟩ := by
  subst hf
  rw [retryGo]
  simp only [h, h429, if_true]

/-- C6: an operation that is rate limited on the first two attempts and
succeeds on the third (with `maxAttempts = 3`) returns the success value after
exactly two sleeps, each of `retryAfter * 1000` ms when a Retry-After value is
provided and `RETRY_DELAY_MS * 2 ^ attempt` otherwise; the rate-limited
attempts count toward `maxAttempts`, so three attempts are made in total. -/
theorem c6_rate_limited_retries {α : Type} (fn : Nat → Except JSError α)
    (ra0 ra1 : Option Nat) (v : α)
    (h0 : fn 0 = .error ⟨429, ra0⟩) (h1 : fn 1 = .error ⟨429, ra1⟩)
    (h2 : fn 2 = .ok v) :
    retryWithBackoff fn 3 =
      ⟨.ok v, [rateLimitDelay ra0 0, rateLimitDelay ra1 1], 3⟩ := by
  rw [retryWithBackoff]
  rw [retryGo_step_rate fn 3 3 2 none ⟨429, ra0⟩ (by norm_num) h0 rfl]
  rw [retryGo_step_rate fn 3 2 1 (some ⟨429, ra0⟩) ⟨429, ra1⟩ (by norm_num) h1 rfl]
  rw [retryGo_step_ok fn 3 1 0 (some ⟨429, ra1⟩) v (by norm_num) h2]

/-- C6 concrete operation: rate limited with Retry-After 7s, then rate limited
without Retry-After, then success with value 42. -/
def c6fn : Nat → Except JSError Nat := fun i =>
  if i = 0 then .error ⟨429, some 7⟩
  else if i = 1 then .error ⟨429, none⟩
  else .ok 42

/-- C6 witness: two sleeps of 7000 ms (Retry-After respected) and 2000 ms
(exponential backoff at attempt 1), then the success value after 3 attempts. -/
theorem c6_rate_limited_retries_witness :
    c6fn 0 = .error ⟨429, some 7⟩ ∧ c6fn 1 = .error ⟨429, none⟩ ∧ c6fn 2 = .ok 42 ∧
    retryWithBackoff c6fn 3 = ⟨.ok 42, [7000, 2000], 3⟩ :=
  ⟨rfl, rfl, rfl, by exact c6_rate_limited_retries c6fn (some 7) none 42 rfl rfl rfl⟩

/-- C8: the stop loop shared by `checkAndStopInactiveCodespaces` and
`enforceMaxCodespaces` processes the decision entries in order, emitting one
outcome per entry (stopped on success, failed on failure), and the final
ledger drops exactly the entries of successfully stopped workspaces — a failed
stop leaves its entry unchanged and never aborts the remaining entries. -/
theorem c8_stop_loop_isolates_failures (stopOk : String → Bool)
    (decision : List Codespace) (ledger : Ledger) :
    (stopLoop stopOk decision ledger).1 =
      decision.map (fun cs =>
        if stopOk cs.name then Outcome.stopped cs.name else Outcome.stopFailed cs.name) ∧
    ∀ n, (stopLoop stopOk decision ledger).2 n =
      if decision.any (fun cs => cs.name == n && stopOk cs.name) then none else ledger n := by
  induction decision generalizing ledger with
  | nil => exact ⟨rfl, fun n => by simp [stopLoop]⟩
  | cons cs rest ih =>
    by_cases hs : stopOk cs.name
    · constructor
      · simp only [stopLoop, hs, if_true, List.map_cons]
        exact congrArg _ (ih (removeAccess ledger cs.name)).1
      · intro n
        simp only [stopLoop, hs, if_true, List.any_cons]
        rw [(ih (removeAccess ledger cs.name)).2 n]
        by_cases hn : cs.name = n
        · simp [hn, removeAccess, hs]
        · have hbeq : (cs.name == n) = false := beq_eq_false_iff_ne.mpr hn
          simp only [hbeq, Bool.false_and, Bool.false_or]
          simp only [removeAccess]
          rw [if_neg (Ne.symm hn)]
    · constructor
      · simp only [stopLoop, hs, if_false, List.map_cons]
        exact congrArg _ (ih ledger).1
      · intro n
        simp only [stopLoop, hs, if_false, List.any_cons, Bool.and_false, Bool.false_or]
        exact (ih ledger).2 n

/-- C1 (counterexample): with a valid token, policy enabled, two non-excluded
Available workspaces and `maxCodespaces = 1`, the periodic check stops nothing
when neither workspace is idle — even though the max-count pass, run on the
same input, would stop the oldest one.  The periodic check does not run the
max-count pass. -/
theorem c1_periodic_check_skips_max_pass :
    settMax1.githubToken ≠ "" ∧
    settMax1.autoStopEnabled = true ∧
    settMax1.maxCodespaces = 1 ∧
    (filterCodespacesByRepo [wsA, wsB] settMax1.excludedRepos).length = 2 ∧
    performCodespaceCheck (fun _ => true) [wsA, wsB] settMax1 recentLedger 3000 =
      ([], recentLedger) ∧
    (enforceSelect [wsA, wsB] settMax1 recentLedger 3000).map (fun p => p.1.name) =
      ["alpha"] :=
  ⟨by decide, rfl, rfl, rfl, rfl, by decide⟩

/-- C1 (amended): the periodic check runs only the idle pass; its result does
not depend on `maxCodespaces` at all.  The max-count pass is the separate
`enforceMaxCodespaces` entry point, triggered by activity events. -/
theorem c1_periodic_check_ignores_max (stopOk : String → Bool)
    (codespaces : List Codespace) (s : Settings) (ledger : Ledger) (now : Int)
    (m1 m2 : Nat) :
    performCodespaceCheck stopOk codespaces { s with maxCodespaces := m1 } ledger now =
      performCodespaceCheck stopOk codespaces { s with maxCodespaces := m2 } ledger now :=
  rfl

/-- C4 (counterexample): two workspaces with equal last-access timestamps and
`maxCodespaces = 1`.  The max-count pass selects whichever comes first in the
remote list order (the sort is stable and has no identifier tie-break), so the
two list orders of the same workspace set yield different selections — and the
reversed order selects `beta`, not the identifier-least `alpha`. -/
theorem c4_tie_depends_on_input_order :
    lastAccessOf tieLedger wsA.name 1000 = lastAccessOf tieLedger wsB.name 1000 ∧
    (enforceSelect [wsA, wsB] settMax1 tieLedger 1000).map (fun p => p.1.name) =
      ["alpha"] ∧
    (enforceSelect [wsB, wsA] settMax1 tieLedger 1000).map (fun p => p.1.name) =
      ["beta"] :=
  ⟨rfl, by decide, by decide⟩

/-- Stability of the insertion step: inserting `x` preserves, for every key,
the subsequence of entries carrying that key, with `x` prepended to its own
key group. -/
theorem filter_orderedInsert (x : Codespace × Int) (s : List (Codespace × Int))
    (key : Int) :
    (List.orderedInsert leAccess x s).filter (fun p => p.2 == key) =
      if x.2 == key then x :: s.filter (fun p => p.2 == key)
      else s.filter (fun p => p.2 == key) := by
  induction s with
  | nil =>
    rw [show List.orderedInsert leAccess x [] = [x] from rfl, List.filter_cons,
      List.filter_nil]
  | cons y ys ih =>
    rw [List.orderedInsert]
    by_cases hxy : leAccess x y
    · rw [if_pos hxy]
      by_cases hx : (x.2 == key) = true
      · rw [if_pos hx, List.filter_cons, if_pos hx]
      · rw [if_neg hx, List.filter_cons, if_neg hx]
    · rw [if_neg hxy]
      have hyx : y.2 < x.2 := by
        have := not_le.mp hxy
        exact this
      by_cases hx : (x.2 == key) = true
      · have hxk : x.2 = key := beq_iff_eq.mp hx
        have hy : (y.2 == key) = false := by
          apply beq_eq_false_iff_ne.mpr
          omega
        rw [if_pos hx, List.filter_cons, if_neg (by simp [hy]), List.filter_cons,
          if_neg (by simp [hy]), ih, if_pos hx]
      · rw [if_neg hx, List.filter_cons, List.filter_cons, ih, if_neg hx]

/-- C4 (amended): the sort used by the max-count pass is stable — for every
key, the entries with that last-access timestamp appear in the sorted list in
exactly the order the remote list returned them.  Ties are therefore broken by
remote list order, not by workspace identifier, and the selection is a
function of the input list rather than of the input set. -/
theorem c4_sort_is_stable (l : List (Codespace × Int)) (key : Int) :
    (sortByAccess l).filter (fun p => p.2 == key) = l.filter (fun p => p.2 == key) := by
  induction l with
  | nil => rfl
  | cons x xs ih =>
    rw [sortByAccess, List.insertionSort]
    rw [show List.insertionSort leAccess xs = sortByAccess xs from rfl]
    rw [filter_orderedInsert, ih, List.filter_cons]

/-- Facts about the first `k` entries of the access-sorted list when all
timestamps are distinct: there are exactly `k` of them, they come from the
input, they are strictly ascending, and each is strictly older than every
input entry left unselected. -/
theorem take_sorted_facts (pairs : List (Codespace × Int)) (k : Nat)
    (hk : k ≤ pairs.length) (hdist : (pairs.map Prod.snd).Nodup) :
    ((sortByAccess pairs).take k).length = k ∧
    (∀ p ∈ (sortByAccess pairs).take k, p ∈ pairs) ∧
    List.Pairwise (fun a b : Codespace × Int => a.2 < b.2) ((sortByAccess pairs).take k) ∧
    (∀ p ∈ (sortByAccess pairs).take k, ∀ q ∈ pairs,
      q ∉ (sortByAccess pairs).take k → p.2 < q.2) := by
  have hperm : List.Perm (sortByAccess pairs) pairs := List.perm_insertionSort leAccess pairs
  have hlen : (sortByAccess pairs).length = pairs.length := hperm.length_eq
  have hsortedLE : List.Pairwise leAccess (sortByAccess pairs) :=
    List.sorted_insertionSort leAccess pairs
  have hnodup2 : ((sortByAccess pairs).map Prod.snd).Nodup :=
    ((hperm.map Prod.snd).nodup_iff).mpr hdist
  have hne : List.Pairwise (fun a b : Codespace × Int => a.2 ≠ b.2) (sortByAccess pairs) :=
    List.pairwise_map.mp hnodup2
  have hlt : List.Pairwise (fun a b : Codespace × Int => a.2 < b.2) (sortByAccess pairs) :=
    (List.Pairwise.and hsortedLE hne).imp fun h => lt_of_le_of_ne h.1 h.2
  refine ⟨?_, ?_, ?_, ?_⟩
  · rw [List.length_take, hlen]
    omega
  · intro p hp
    exact hperm.subset (List.take_subset _ _ hp)
  · exact List.Pairwise.sublist (List.take_sublist _ _) hlt
  · intro p hp q hq hqnot
    have hq1 : q ∈ sortByAccess pairs := (hperm.mem_iff).mpr hq
    have hsplit := List.take_append_drop k (sortByAccess pairs)
    have hq2 : q ∈ (sortByAccess pairs).take k ++ (sortByAccess pairs).drop k := by
      rw [hsplit]
      exact hq1
    have hq3 : q ∈ (sortByAccess pairs).drop k := by
      rcases List.mem_append.mp hq2 with h | h
      · exact absurd h hqnot
      · exact h
    have hlt2 : List.Pairwise (fun a b : Codespace × Int => a.2 < b.2)
        ((sortByAccess pairs).take k ++ (sortByAccess pairs).drop k) := by
      rw [hsplit]
      exact hlt
    exact (List.pairwise_append.mp hlt2).2.2 p hp q hq3

/-- C3: whenever the exclusion-filtered list has more than `maxCodespaces`
elements and all last-access timestamps are distinct, the max-count pass
selects exactly `count - maxCodespaces` workspaces, all drawn from the
filtered list, ordered by strictly ascending last access, each strictly older
than every unselected filtered workspace, and every decision entry carries
reason MaxExceeded. -/
theorem c3_max_pass_selects_oldest (codespaces : List Codespace) (s : Settings)
    (ledger : Ledger) (now : Int)
    (hcount : s.maxCodespaces < (filterCodespacesByRepo codespaces s.excludedRepos).length)
    (hdist : ((withAccess (filterCodespacesByRepo codespaces s.excludedRepos) ledger now).map
      Prod.snd).Nodup) :
    (enforceSelect codespaces s ledger now).length =
        (filterCodespacesByRepo codespaces s.excludedRepos).length - s.maxCodespaces ∧
    (∀ p ∈ enforceSelect codespaces s ledger now,
        p ∈ withAccess (filterCodespacesByRepo codespaces s.excludedRepos) ledger now) ∧
    List.Pairwise (fun a b : Codespace × Int => a.2 < b.2)
      (enforceSelect codespaces s ledger now) ∧
    (∀ p ∈ enforceSelect codespaces s ledger now,
      ∀ q ∈ withAccess (filterCodespacesByRepo codespaces s.excludedRepos) ledger now,
        q ∉ enforceSelect codespaces s ledger now → p.2 < q.2) ∧
    (∀ d ∈ enforceDecision codespaces s ledger now, d.2 = Reason.MaxExceeded) := by
  have hplen : (withAccess (filterCodespacesByRepo codespaces s.excludedRepos) ledger
      now).length = (filterCodespacesByRepo codespaces s.excludedRepos).length := by
    rw [withAccess, List.length_map]
  have hsel : enforceSelect codespaces s ledger now =
      (sortByAccess (withAccess (filterCodespacesByRepo codespaces s.excludedRepos)
        ledger now)).take
        ((filterCodespacesByRepo codespaces s.excludedRepos).length - s.maxCodespaces) := by
    simp only [enforceSelect]
    rw [if_neg (Nat.not_le.mpr hcount)]
  have hfacts := take_sorted_facts
    (withAccess (filterCodespacesByRepo codespaces s.excludedRepos) ledger now)
    ((filterCodespacesByRepo codespaces s.excludedRepos).length - s.maxCodespaces)
    (by omega) hdist
  rw [hsel]
  refine ⟨hfacts.1, hfacts.2.1, hfacts.2.2.1, hfacts.2.2.2, ?_⟩
  intro d hd
  rw [enforceDecision] at hd
  obtain ⟨q, _, hEq⟩ := List.mem_map.mp hd
  rw [← hEq]

/-- C3 witness: three workspaces with distinct last-access times 600, 605, 610
and `maxCodespaces = 1`: exactly the two oldest are selected, in ascending
order of last access. -/
theorem c3_max_pass_selects_oldest_witness :
    settMax1.maxCodespaces <
        (filterCodespacesByRepo [wsC, wsA, wsB] settMax1.excludedRepos).length ∧
    ((withAccess (filterCodespacesByRepo [wsC, wsA, wsB] settMax1.excludedRepos)
        distinctLedger 1000).map Prod.snd).Nodup ∧
    (enforceSelect [wsC, wsA, wsB] settMax1 distinctLedger 1000).length = 2 ∧
    List.Pairwise (fun a b : Codespace × Int => a.2 < b.2)
      (enforceSelect [wsC, wsA, wsB] settMax1 distinctLedger 1000) :=
  ⟨by decide, by decide,
    by exact (c3_max_pass_selects_oldest [wsC, wsA, wsB] settMax1 distinctLedger 1000
      (by decide) (by decide)).1,
    (c3_max_pass_selects_oldest [wsC, wsA, wsB] settMax1 distinctLedger 1000
      (by decide) (by decide)).2.2.1⟩

end OneCodespace
